import Mathlib

/-!
Verification of the Sudoku solver core of `sudoku-www` (`src/sudoku.rs`).

The Rust code is shallowly embedded as follows:

* `Cell` mirrors `enum Cell { Variable(u8), Constant(u8), Empty }`.  The `u8`
  payload is modelled as `Nat`; the single place where the Rust code casts a
  wider integer into `u8` (`Cell::Variable(v as u8)` in the solver loop) is
  modelled by an explicit `% 256`.
* `Board` mirrors `struct Board { squares: Box<[Cell]>, n: usize }`, with the
  boxed slice modelled as a `List Cell`.
* Rust panics (out-of-bounds slice indexing, `assert_eq!` failure) are
  modelled as `Except.error ()`; operations that can panic return
  `Except Unit _`.
* The recursive search `Board::solver` is modelled by the fuelled function
  `solverF`; running out of fuel yields `none`.  `Board.solve` supplies
  `n * n + 1` fuel, which is proved sufficient (`solverF_isSome`), so the
  fuel is an artifact of totality only, never observable.
* `(x as f64).sqrt() as usize` is modelled as the floor square root
  `fsqrt` (exact for every length a real slice can have).
* `usize` subtraction `self.n - 1` is modelled by truncated `Nat`
  subtraction; for `n = 0` the Rust build would abort either at this
  subtraction (debug) or at the out-of-bounds read that immediately follows
  (release), and the model reports the error at the read.
* Division by zero inside `check_box_constraint` (only possible for
  `n = 0`, where the function is unreachable because every `get` on an
  empty board already panics) is modelled by `Nat` division, which is total.
-/

inductive Cell where
  | Variable : Nat → Cell
  | Constant : Nat → Cell
  | Empty : Cell
deriving DecidableEq, Repr

/-- Helper for `fsqrt`: the largest `m ≤ k` with `m * m ≤ n` (or 0). -/
def sqrtAux (n : Nat) : Nat → Nat
  | 0 => 0
  | k + 1 => if (k + 1) * (k + 1) ≤ n then k + 1 else sqrtAux n k

/-- `⌊√n⌋`, modelling Rust's `(n as f64).sqrt() as usize` (exact for every
length a real slice can have).  Defined by structural recursion — unlike
Mathlib's `fsqrt` — so that solver runs on concrete boards compute
inside the kernel; `fsqrt_eq_sqrt` below certifies it agrees with
`fsqrt` everywhere. -/
def fsqrt (n : Nat) : Nat := sqrtAux n n

namespace Board

end Board

/-- `pub struct Board { pub squares: Box<[Cell]>, pub n: usize }` -/
structure Board where
  squares : List Cell
  n : Nat
deriving DecidableEq, Repr

namespace Board

/-- `Board::new`: `vec![Cell::Empty; n * n]`, side `n`. -/
def new (n : Nat) : Board :=
  { squares := List.replicate (n * n) Cell.Empty, n := n }

/-- `Board::from` (named `fromCells` because `from` is a Lean keyword):
`let n = (squares.len() as f64).sqrt() as usize; assert_eq!(n * n, squares.len())`;
the `assert_eq!` panic is the `.error` branch. -/
def fromCells (squares : List Cell) : Except Unit Board :=
  let n := fsqrt squares.length
  if n * n = squares.length then .ok { squares := squares, n := n }
  else .error ()

/-- `Board::get`: `self.squares[y * self.n + x]`; out-of-bounds indexing
panics, modelled as `.error ()`. -/
def get? (b : Board) (x y : Nat) : Except Unit Cell :=
  match b.squares.get? (y * b.n + x) with
  | some c => .ok c
  | none => .error ()

/-- `Board::set`: clone the squares, then `board.squares[y * self.n + x] = v`
(a panicking index assignment, hence `.error` when out of bounds). -/
def set? (b : Board) (x y : Nat) (v : Cell) : Except Unit Board :=
  if y * b.n + x < b.squares.length then
    .ok { squares := b.squares.set (y * b.n + x) v, n := b.n }
  else .error ()

/-- The common shape of the three constraint-check loops in the source: walk
a list of coordinates, skip `Empty`, return `false` on the first repeated
value, collecting seen values (the Rust `HashSet` is modelled as the list
`seen`, used only through membership). -/
def checkLoop (b : Board) : List (Nat × Nat) → List Nat → Except Unit Bool
  | [], _ => .ok true
  | (x, y) :: rest, seen =>
    match b.get? x y with
    | .error e => .error e
    | .ok Cell.Empty => checkLoop b rest seen
    | .ok (Cell.Variable v) | .ok (Cell.Constant v) =>
      if v ∈ seen then .ok false else checkLoop b rest (v :: seen)

/-- `Board::check_row_constraint`: `for x in 0..self.n { ... self.get(x, y) ... }`. -/
def check_row_constraint (b : Board) (y : Nat) : Except Unit Bool :=
  checkLoop b ((List.range b.n).map (fun x => (x, y))) []

/-- `Board::check_col_constraint`: `for y in 0..self.n { ... self.get(x, y) ... }`. -/
def check_col_constraint (b : Board) (x : Nat) : Except Unit Bool :=
  checkLoop b ((List.range b.n).map (fun y => (x, y))) []

/-- `Board::check_box_constraint`:
`let sqrt_n = (self.n as f64).sqrt() as usize;` then the nested loops
`for y_ in (y/sqrt_n*sqrt_n)..((y/sqrt_n+1)*sqrt_n)` /
`for x_ in (x/sqrt_n*sqrt_n)..((x/sqrt_n+1)*sqrt_n)`; each range has
`sqrt_n` elements. -/
def check_box_constraint (b : Board) (x y : Nat) : Except Unit Bool :=
  let sqrt_n := fsqrt b.n
  checkLoop b
    ((List.range' (y / sqrt_n * sqrt_n) sqrt_n).flatMap
      (fun ycur => (List.range' (x / sqrt_n * sqrt_n) sqrt_n).map
        (fun xcur => (xcur, ycur))))
    []

/-- `Board::within_constraints`: `check_row && check_col && check_box`,
with Rust's `&&` short-circuit (a later check is not run — so cannot
panic — once an earlier one returned `false`). -/
def within_constraints (b : Board) (x y : Nat) : Except Unit Bool :=
  match b.check_row_constraint y with
  | .error e => .error e
  | .ok false => .ok false
  | .ok true =>
    match b.check_col_constraint x with
    | .error e => .error e
    | .ok false => .ok false
    | .ok true => b.check_box_constraint x y

/-- The candidate values `for v in 1..=self.n`, i.e. `[1, 2, …, n]`. -/
def candList (n : Nat) : List Nat := List.range' 1 n

/-- The body of the solver's candidate loop (the `_` match arm of
`Board::solver`).  `step` is the recursive call `|nb| nb.solver(x_next, y_next)`
of the enclosing solver, abstracted so that both functions are structurally
recursive.  Outcomes: `none` = out of fuel, `some (.error ())` = panic,
`some (.ok r)` = the loop returned `r`. -/
def tryStep (step : Board → Option (Except Unit (Option Board)))
    (b : Board) (x y : Nat) : List Nat → Option (Except Unit (Option Board))
  | [] => some (.ok none)
  | v :: rest =>
    match b.set? x y (Cell.Variable (v % 256)) with
    | .error _ => some (.error ())
    | .ok new_board =>
      match new_board.within_constraints x y with
      | .error _ => some (.error ())
      | .ok false => tryStep step b x y rest
      | .ok true =>
        if x = b.n - 1 ∧ y = b.n - 1 then some (.ok (some new_board))
        else
          match step new_board with
          | none => none
          | some (.error e) => some (.error e)
          | some (.ok (some board)) => some (.ok (some board))
          | some (.ok none) => tryStep step b x y rest

/-- `Board::solver`, with a fuel argument for totality (`none` = fuel ran
out; `Board.solve` supplies provably sufficient fuel).
`let x_next = if x < self.n - 1 { x + 1 } else { 0 };`
`let y_next = if x < self.n - 1 { y } else { y + 1 };`
then match on `self.get(x, y)`: a `Constant` cell is checked and skipped,
anything else enters the candidate loop `tryStep`. -/
def solverF : Board → Nat → Nat → Nat → Option (Except Unit (Option Board))
  | _, 0, _, _ => none
  | b, f + 1, x, y =>
    let x_next := if x < b.n - 1 then x + 1 else 0
    let y_next := if x < b.n - 1 then y else y + 1
    match b.get? x y with
    | .error _ => some (.error ())
    | .ok (Cell.Constant _) =>
      match b.within_constraints x y with
      | .error _ => some (.error ())
      | .ok false => some (.ok none)
      | .ok true => solverF b f x_next y_next
    | .ok _ => tryStep (fun nb => solverF nb f x_next y_next) b x y (candList b.n)

/-- `Board::solve`: `self.solver(0, 0)`.  The fuel `n * n + 1` is proved
sufficient below, so the `none => .error ()` fallback is dead code for
well-formed boards. -/
def solve (b : Board) : Except Unit (Option Board) :=
  match solverF b (b.n * b.n + 1) 0 0 with
  | some r => r
  | none => .error ()

end Board

/-! ## Specification-level notions

These definitions express, independently of the loop-and-accumulator shape
of the Rust checks, what the spec means by a row / column / sub-box being
free of duplicates, by a grid being complete, and by the structural
invariant `squares.length == n * n` of every constructed grid. -/

/-- The value carried by a cell, if any: the constraint logic treats
`Variable` and `Constant` identically as "occupied with value v". -/
def cellVal : Cell → Option Nat
  | Cell.Variable v => some v
  | Cell.Constant v => some v
  | Cell.Empty => none

/-- The cell at flat (row-major) position `p`. -/
def cellAt (b : Board) (p : Nat) : Cell := b.squares.getD p Cell.Empty

/-- The grid invariant `squares.length == n * n`. -/
def Board.Wf (b : Board) : Prop := b.squares.length = b.n * b.n

/-- `n` has an integer square root (the spec requires this of every grid
side). -/
def IsSquareN (n : Nat) : Prop := fsqrt n * fsqrt n = n

/-- The coordinates traversed by `check_row_constraint y`. -/
def rowCoords (n y : Nat) : List (Nat × Nat) :=
  (List.range n).map (fun x => (x, y))

/-- The coordinates traversed by `check_col_constraint x`. -/
def colCoords (n x : Nat) : List (Nat × Nat) :=
  (List.range n).map (fun y => (x, y))

/-- The coordinates of sub-box `(i, j)` of a grid with box side `s`
(the coordinates traversed by `check_box_constraint x y` are those of box
`(x / s, y / s)`). -/
def boxCoords (s i j : Nat) : List (Nat × Nat) :=
  (List.range' (j * s) s).flatMap
    (fun ycur => (List.range' (i * s) s).map (fun xcur => (xcur, ycur)))

/-- The non-Empty values found along a list of coordinates, in traversal
order. -/
def unitVals (b : Board) (coords : List (Nat × Nat)) : List Nat :=
  coords.filterMap (fun q => cellVal (cellAt b (q.2 * b.n + q.1)))

/-- Row `y` has no two non-Empty cells with the same value. -/
def RowOk (b : Board) (y : Nat) : Prop := (unitVals b (rowCoords b.n y)).Nodup

/-- Column `x` has no two non-Empty cells with the same value. -/
def ColOk (b : Board) (x : Nat) : Prop := (unitVals b (colCoords b.n x)).Nodup

/-- Sub-box `(i, j)` has no two non-Empty cells with the same value. -/
def BoxOk (b : Board) (i j : Nat) : Prop :=
  (unitVals b (boxCoords (fsqrt b.n) i j)).Nodup

/-- A grid is valid: no row, column, or sub-box contains two non-Empty
cells with the same value. -/
def ValidBoard (b : Board) : Prop :=
  (∀ y, y < b.n → RowOk b y) ∧ (∀ x, x < b.n → ColOk b x) ∧
  (∀ i j, i < fsqrt b.n → j < fsqrt b.n → BoxOk b i j)

/-- A grid is complete: no cell is Empty. -/
def CompleteBoard (b : Board) : Prop :=
  ∀ p, p < b.squares.length → cellAt b p ≠ Cell.Empty

/-- Pure rendition of the seen-set loop shared by the three constraint
checks: `false` iff a value repeats (relative to the accumulator). -/
def loopPure : List Nat → List Nat → Bool
  | [], _ => true
  | v :: vs, seen => if v ∈ seen then false else loopPure vs (v :: seen)

/-- The conjunction of the three constraint checks at `(x, y)`, stated at
the spec level: the row, the column, and the sub-box containing `(x, y)`
are each duplicate-free. -/
def ChecksAt (b : Board) (x y : Nat) : Prop :=
  RowOk b y ∧ ColOk b x ∧ BoxOk b (x / fsqrt b.n) (y / fsqrt b.n)

/-- `S` and `bb` agree on every flat position below `m`. -/
def AgreesBelow (S bb : Board) (m : Nat) : Prop :=
  ∀ p, p < m → cellAt S p = cellAt bb p

/-- From position `m` on, every cell of `S` is either the `Constant` cell
that `bb` has there, or (when `bb`'s cell is not a `Constant`) a `Variable`
written by the candidate loop: `Variable (w % 256)` for some candidate
`1 ≤ w ≤ bb.n`. -/
def SolCells (S bb : Board) (m : Nat) : Prop :=
  ∀ p, m ≤ p → p < bb.squares.length →
    (∃ v, cellAt bb p = Cell.Constant v ∧ cellAt S p = Cell.Constant v) ∨
    ((∀ u, cellAt bb p ≠ Cell.Constant u) ∧
      ∃ w, 1 ≤ w ∧ w ≤ bb.n ∧ cellAt S p = Cell.Variable (w % 256))

/-- The three constraint checks hold on `S` at every in-range cell whose
flat position is at least `m`. -/
def ChecksFrom (S : Board) (m : Nat) : Prop :=
  ∀ x0 y0, x0 < S.n → y0 < S.n → m ≤ y0 * S.n + x0 → ChecksAt S x0 y0

/-- What the solver guarantees about a returned grid `S` for a call at
flat position `m` on board `bb`. -/
def SolverOut (S bb : Board) (m : Nat) : Prop :=
  S.n = bb.n ∧ S.Wf ∧ AgreesBelow S bb m ∧ SolCells S bb m ∧ ChecksFrom S m

/-- Every non-Empty cell of `bb` carries the same value (under `cellVal`)
in `S`; the tag (`Variable`/`Constant`) need not match. -/
def ValAgree (bb S : Board) : Prop :=
  ∀ p, p < bb.squares.length → ∀ v,
    cellVal (cellAt bb p) = some v → cellVal (cellAt S p) = some v

/-- Claim-level notion of "an assignment of values 1..N to the Empty cells
of G": `S` keeps every non-Empty cell of `b` unchanged and replaces every
Empty cell by a `Variable` holding a value in `[1, b.n]`.  The `v ≤ 255`
bound records that cells of the Rust program hold `u8` values, so only
such assignments "produce a grid". -/
def Assignment (b S : Board) : Prop :=
  S.n = b.n ∧ S.Wf ∧
  ∀ p, p < b.squares.length →
    (cellAt b p ≠ Cell.Empty → cellAt S p = cellAt b p) ∧
    (cellAt b p = Cell.Empty →
      ∃ v, 1 ≤ v ∧ v ≤ b.n ∧ v ≤ 255 ∧ cellAt S p = Cell.Variable v)

/-- Every cell of `b` is either Empty or a Fixed (`Constant`) cell — the
shape of a freshly entered puzzle. -/
def OnlyConstOrEmpty (b : Board) : Prop :=
  ∀ p, p < b.squares.length →
    cellAt b p = Cell.Empty ∨ ∃ v, cellAt b p = Cell.Constant v

/-! ## Concrete grids used by the scenario claims -/

/-- The repository's own test fixture (`tests::test_solve_valid`): a 4×4
grid with Fixed cells at row-major indices 0, 4 and 10, i.e. at
(column, row) coordinates (0,0)=2, (0,1)=4 and (2,2)=2. -/
def fixtureBoard : Board :=
  { squares :=
      [Cell.Constant 2, Cell.Empty, Cell.Empty, Cell.Empty,
       Cell.Constant 4, Cell.Empty, Cell.Empty, Cell.Empty,
       Cell.Empty, Cell.Empty, Cell.Constant 2, Cell.Empty,
       Cell.Empty, Cell.Empty, Cell.Empty, Cell.Empty],
    n := 4 }

/-- The solution the repository's test expects for `fixtureBoard`
(row-major values `[2,1,3,4, 4,3,1,2, 1,4,2,3, 3,2,4,1]`). -/
def fixtureSolution : Board :=
  { squares :=
      [Cell.Constant 2, Cell.Variable 1, Cell.Variable 3, Cell.Variable 4,
       Cell.Constant 4, Cell.Variable 3, Cell.Variable 1, Cell.Variable 2,
       Cell.Variable 1, Cell.Variable 4, Cell.Constant 2, Cell.Variable 3,
       Cell.Variable 3, Cell.Variable 2, Cell.Variable 4, Cell.Variable 1],
    n := 4 }

/-- The 4×4 grid literally described by claim C4: its only non-Empty cells
are Fixed cells at (column, row) = (0,0), (1,1) and (2,2), i.e. row-major
indices 0, 5 and 10 (note: index 5, not the fixture's index 4). -/
def claimC4Board : Board :=
  { squares :=
      [Cell.Constant 2, Cell.Empty, Cell.Empty, Cell.Empty,
       Cell.Empty, Cell.Constant 4, Cell.Empty, Cell.Empty,
       Cell.Empty, Cell.Empty, Cell.Constant 2, Cell.Empty,
       Cell.Empty, Cell.Empty, Cell.Empty, Cell.Empty],
    n := 4 }

/-- What the solver actually returns on `claimC4Board` (computed by the
model and pinned by `C4_counterexample`). -/
def claimC4Solution : Board :=
  { squares :=
      [Cell.Constant 2, Cell.Variable 1, Cell.Variable 3, Cell.Variable 4,
       Cell.Variable 3, Cell.Constant 4, Cell.Variable 1, Cell.Variable 2,
       Cell.Variable 4, Cell.Variable 3, Cell.Constant 2, Cell.Variable 1,
       Cell.Variable 1, Cell.Variable 2, Cell.Variable 4, Cell.Variable 3],
    n := 4 }

/-- A 4×4 grid with two identical Fixed values (2) in row 0, at columns 0
and 1. -/
def dupRowBoard : Board :=
  { squares :=
      [Cell.Constant 2, Cell.Constant 2, Cell.Empty, Cell.Empty,
       Cell.Empty, Cell.Empty, Cell.Empty, Cell.Empty,
       Cell.Empty, Cell.Empty, Cell.Empty, Cell.Empty,
       Cell.Empty, Cell.Empty, Cell.Empty, Cell.Empty],
    n := 4 }

/-! ## Basic lemmas: positions, access, and the check loops -/

theorem sqrtAux_ge (n : Nat) : ∀ (k m : Nat), m ≤ k → m * m ≤ n →
    m ≤ sqrtAux n k := by
  intro k
  induction k with
  | zero => intro m hm _; omega
  | succ k ih =>
    intro m hm hmn
    rw [sqrtAux]
    by_cases h : (k + 1) * (k + 1) ≤ n
    · rw [if_pos h]; exact hm
    · rw [if_neg h]
      apply ih
      · by_cases hmk : m = k + 1
        · subst hmk; exact absurd hmn h
        · omega
      · exact hmn

theorem fsqrt_pos {n : Nat} (h : 0 < n) : 0 < fsqrt n :=
  sqrtAux_ge n n 1 h (by omega)

theorem sqrtAux_eq (n : Nat) : ∀ (k s : Nat), s ≤ k → s * s ≤ n →
    n < (s + 1) * (s + 1) → sqrtAux n k = s := by
  intro k
  induction k with
  | zero =>
    intro s h1 _ _
    rw [sqrtAux]
    omega
  | succ k ih =>
    intro s h1 h2 h3
    rw [sqrtAux]
    by_cases h : (k + 1) * (k + 1) ≤ n
    · rw [if_pos h]
      have hlt : k + 1 < s + 1 := by
        by_contra hc
        push_neg at hc
        have : (s + 1) * (s + 1) ≤ (k + 1) * (k + 1) := Nat.mul_le_mul hc hc
        omega
      omega
    · rw [if_neg h]
      apply ih
      · by_cases hsk : s = k + 1
        · subst hsk; exact absurd h2 h
        · omega
      · exact h2
      · exact h3

theorem fsqrt_sq (s : Nat) : fsqrt (s * s) = s := by
  apply sqrtAux_eq
  · by_cases h : s = 0
    · subst h; omega
    · calc s = s * 1 := by ring
        _ ≤ s * s := Nat.mul_le_mul_left s (by omega)
  · exact le_refl _
  · have : (s + 1) * (s + 1) = s * s + 2 * s + 1 := by ring
    omega

theorem fsqrt_eq_sqrt (n : Nat) : fsqrt n = Nat.sqrt n := by
  apply sqrtAux_eq
  · exact Nat.sqrt_le_self n
  · exact Nat.sqrt_le n
  · exact Nat.lt_succ_sqrt n

theorem pos_lt_sq {n x y : Nat} (hx : x < n) (hy : y < n) :
    y * n + x < n * n := by
  calc y * n + x < y * n + n := by omega
    _ = (y + 1) * n := by ring
    _ ≤ n * n := Nat.mul_le_mul_right n hy

theorem y_lt_of_pos_lt {n x y : Nat} (h : y * n + x < n * n) : y < n := by
  by_contra hc
  push_neg at hc
  have : n * n ≤ y * n := Nat.mul_le_mul_right n hc
  omega

theorem pos_inj {n x x' y y' : Nat} (hx : x < n) (hx' : x' < n)
    (h : y * n + x = y' * n + x') : x = x' ∧ y = y' := by
  rcases Nat.lt_trichotomy y y' with hlt | heq | hgt
  · have : y * n + x < y' * n + x' := by
      calc y * n + x < y * n + n := by omega
        _ = (y + 1) * n := by ring
        _ ≤ y' * n := Nat.mul_le_mul_right n hlt
        _ ≤ y' * n + x' := by omega
    omega
  · constructor
    · subst heq; omega
    · exact heq
  · have : y' * n + x' < y * n + x := by
      calc y' * n + x' < y' * n + n := by omega
        _ = (y' + 1) * n := by ring
        _ ≤ y * n := Nat.mul_le_mul_right n hgt
        _ ≤ y * n + x := by omega
    omega

theorem next_pos {n x y : Nat} (hx : x < n) :
    (if x < n - 1 then y else y + 1) * n + (if x < n - 1 then x + 1 else 0)
      = y * n + x + 1 := by
  by_cases h : x < n - 1
  · simp only [h, if_true]
    omega
  · have hx1 : x = n - 1 := by omega
    simp only [h, if_false]
    have : (y + 1) * n = y * n + n := by ring
    omega

theorem xnext_lt {n x : Nat} (hx : x < n) :
    (if x < n - 1 then x + 1 else 0) < n := by
  by_cases h : x < n - 1 <;> simp [h] <;> omega

theorem get?_eq_ok {b : Board} {x y : Nat}
    (h : y * b.n + x < b.squares.length) :
    b.get? x y = .ok (cellAt b (y * b.n + x)) := by
  unfold Board.get? cellAt
  rw [List.get?_eq_get h, List.getD_eq_get b.squares Cell.Empty h]

theorem get?_eq_err {b : Board} {x y : Nat}
    (h : b.squares.length ≤ y * b.n + x) :
    b.get? x y = .error () := by
  unfold Board.get?
  rw [List.get?_eq_none.mpr h]

theorem get?_ok_elim {b : Board} {x y : Nat} {c : Cell}
    (h : b.get? x y = .ok c) :
    y * b.n + x < b.squares.length ∧ cellAt b (y * b.n + x) = c := by
  by_cases hlt : y * b.n + x < b.squares.length
  · rw [get?_eq_ok hlt] at h
    exact ⟨hlt, by injection h⟩
  · rw [get?_eq_err (by omega)] at h
    exact absurd h (by simp)

theorem set?_eq_ok {b : Board} {x y : Nat} {c : Cell}
    (h : y * b.n + x < b.squares.length) :
    b.set? x y c = .ok { squares := b.squares.set (y * b.n + x) c, n := b.n } := by
  unfold Board.set?
  rw [if_pos h]

theorem cellAt_set {b : Board} {i : Nat} {c : Cell} (hi : i < b.squares.length)
    (p : Nat) :
    cellAt { squares := b.squares.set i c, n := b.n } p
      = if p = i then c else cellAt b p := by
  unfold cellAt
  by_cases hp : p = i
  · subst hp
    simp [List.getD_eq_getElem?_getD, List.getElem?_set_eq_of_lt _ hi]
  · simp [List.getD_eq_getElem?_getD, List.getElem?_set_ne (fun h => hp h.symm),
      hp]

theorem loopPure_true_iff : ∀ (vs seen : List Nat),
    loopPure vs seen = true ↔ vs.Nodup ∧ ∀ v ∈ vs, v ∉ seen := by
  intro vs
  induction vs with
  | nil => intro seen; simp [loopPure]
  | cons v vs ih =>
    intro seen
    by_cases hv : v ∈ seen
    · rw [loopPure, if_pos hv]
      constructor
      · intro h; exact absurd h (by simp)
      · rintro ⟨_, h2⟩
        exact absurd hv (h2 v (List.mem_cons_self v vs))
    · rw [loopPure, if_neg hv, ih]
      simp only [List.nodup_cons, List.mem_cons]
      constructor
      · rintro ⟨hnd, hall⟩
        refine ⟨⟨fun hvm => (hall v hvm) (Or.inl rfl), hnd⟩, ?_⟩
        rintro u (rfl | hu)
        · exact hv
        · exact fun hs => (hall u hu) (Or.inr hs)
      · rintro ⟨⟨hvn, hnd⟩, hall⟩
        refine ⟨hnd, fun u hu => ?_⟩
        rintro (rfl | hs)
        · exact hvn hu
        · exact (hall u (Or.inr hu)) hs

theorem loopPure_nil_true (vs : List Nat) :
    loopPure vs [] = true ↔ vs.Nodup := by
  rw [loopPure_true_iff]; simp

theorem checkLoop_eq_ok (b : Board) :
    ∀ (coords : List (Nat × Nat)) (seen : List Nat),
    (∀ q ∈ coords, q.2 * b.n + q.1 < b.squares.length) →
    Board.checkLoop b coords seen = .ok (loopPure (unitVals b coords) seen) := by
  intro coords
  induction coords with
  | nil => intro seen _; rfl
  | cons q rest ih =>
    intro seen h
    obtain ⟨x, y⟩ := q
    have hin : y * b.n + x < b.squares.length :=
      h (x, y) (List.mem_cons_self _ _)
    have hrest : ∀ q ∈ rest, q.2 * b.n + q.1 < b.squares.length :=
      fun q hq => h q (List.mem_cons_of_mem _ hq)
    rw [Board.checkLoop, get?_eq_ok hin]
    cases hc : cellAt b (y * b.n + x) with
    | Empty =>
      simp only [unitVals, List.filterMap_cons]
      rw [show cellVal (cellAt b (y * b.n + x)) = none from by rw [hc]; rfl]
      exact ih seen hrest
    | Variable v =>
      simp only [unitVals, List.filterMap_cons]
      rw [show cellVal (cellAt b (y * b.n + x)) = some v from by rw [hc]; rfl]
      by_cases hvs : v ∈ seen
      · rw [loopPure, if_pos hvs]; simp [hvs]
      · rw [loopPure, if_neg hvs]
        simp only [hvs, if_false]
        exact ih (v :: seen) hrest
    | Constant v =>
      simp only [unitVals, List.filterMap_cons]
      rw [show cellVal (cellAt b (y * b.n + x)) = some v from by rw [hc]; rfl]
      by_cases hvs : v ∈ seen
      · rw [loopPure, if_pos hvs]; simp [hvs]
      · rw [loopPure, if_neg hvs]
        simp only [hvs, if_false]
        exact ih (v :: seen) hrest

theorem rowCoords_mem {n y : Nat} {q : Nat × Nat} (h : q ∈ rowCoords n y) :
    q.1 < n ∧ q.2 = y := by
  unfold rowCoords at h
  obtain ⟨x, hx, rfl⟩ := List.mem_map.mp h
  exact ⟨List.mem_range.mp hx, rfl⟩

theorem colCoords_mem {n x : Nat} {q : Nat × Nat} (h : q ∈ colCoords n x) :
    q.1 = x ∧ q.2 < n := by
  unfold colCoords at h
  obtain ⟨y, hy, rfl⟩ := List.mem_map.mp h
  exact ⟨rfl, List.mem_range.mp hy⟩

theorem boxCoords_mem {s i j : Nat} {q : Nat × Nat} (h : q ∈ boxCoords s i j) :
    i * s ≤ q.1 ∧ q.1 < i * s + s ∧ j * s ≤ q.2 ∧ q.2 < j * s + s := by
  unfold boxCoords at h
  obtain ⟨ycur, hy, hq⟩ := List.mem_flatMap.mp h
  obtain ⟨xcur, hx, rfl⟩ := List.mem_map.mp hq
  have hy' := List.mem_range'_1.mp hy
  have hx' := List.mem_range'_1.mp hx
  exact ⟨hx'.1, hx'.2, hy'.1, hy'.2⟩

theorem div_mul_bound {a s : Nat} (hs : 0 < s) (ha : a < s * s) :
    a / s * s + s ≤ s * s := by
  have hds : a / s < s := Nat.div_lt_iff_lt_mul hs |>.mpr ha
  calc a / s * s + s = (a / s + 1) * s := by ring
    _ ≤ s * s := Nat.mul_le_mul_right s hds

theorem check_row_eq {b : Board} {y : Nat} (hwf : b.Wf) (hy : y < b.n) :
    b.check_row_constraint y
      = .ok (loopPure (unitVals b (rowCoords b.n y)) []) := by
  apply checkLoop_eq_ok
  intro q hq
  obtain ⟨h1, h2⟩ := rowCoords_mem hq
  rw [hwf, h2]
  exact pos_lt_sq h1 hy

theorem check_col_eq {b : Board} {x : Nat} (hwf : b.Wf) (hx : x < b.n) :
    b.check_col_constraint x
      = .ok (loopPure (unitVals b (colCoords b.n x)) []) := by
  apply checkLoop_eq_ok
  intro q hq
  obtain ⟨h1, h2⟩ := colCoords_mem hq
  rw [hwf, h1]
  exact pos_lt_sq hx h2

theorem check_box_eq {b : Board} {x y : Nat} (hwf : b.Wf)
    (hsq : IsSquareN b.n) (hx : x < b.n) (hy : y < b.n) :
    b.check_box_constraint x y
      = .ok (loopPure
          (unitVals b (boxCoords (fsqrt b.n) (x / fsqrt b.n)
            (y / fsqrt b.n))) []) := by
  apply checkLoop_eq_ok
  intro q hq
  obtain ⟨_, h2, _, h4⟩ := boxCoords_mem hq
  have hs : 0 < fsqrt b.n := by
    exact fsqrt_pos (by omega)
  have hxs : x < fsqrt b.n * fsqrt b.n := by rw [hsq]; exact hx
  have hys : y < fsqrt b.n * fsqrt b.n := by rw [hsq]; exact hy
  have hb1 := div_mul_bound hs hxs
  have hb2 := div_mul_bound hs hys
  have hxb : q.1 < b.n := by rw [← hsq]; omega
  have hyb : q.2 < b.n := by rw [← hsq]; omega
  rw [hwf]
  exact pos_lt_sq hxb hyb

theorem within_eq_ok {b : Board} {x y : Nat} (hwf : b.Wf)
    (hsq : IsSquareN b.n) (hx : x < b.n) (hy : y < b.n) :
    ∃ r, b.within_constraints x y = .ok r ∧ (r = true ↔ ChecksAt b x y) := by
  unfold Board.within_constraints
  rw [check_row_eq hwf hy]
  cases hrow : loopPure (unitVals b (rowCoords b.n y)) [] with
  | false =>
    refine ⟨false, rfl, ?_⟩
    simp only [Bool.false_eq_true, false_iff]
    intro hca
    have := (loopPure_nil_true _).mpr hca.1
    rw [hrow] at this
    exact absurd this (by simp)
  | true =>
    rw [check_col_eq hwf hx]
    cases hcol : loopPure (unitVals b (colCoords b.n x)) [] with
    | false =>
      refine ⟨false, rfl, ?_⟩
      simp only [Bool.false_eq_true, false_iff]
      intro hca
      have := (loopPure_nil_true _).mpr hca.2.1
      rw [hcol] at this
      exact absurd this (by simp)
    | true =>
      rw [check_box_eq hwf hsq hx hy]
      cases hbox : loopPure (unitVals b (boxCoords (fsqrt b.n)
          (x / fsqrt b.n) (y / fsqrt b.n))) [] with
      | false =>
        refine ⟨false, rfl, ?_⟩
        simp only [Bool.false_eq_true, false_iff]
        intro hca
        have := (loopPure_nil_true _).mpr hca.2.2
        rw [hbox] at this
        exact absurd this (by simp)
      | true =>
        refine ⟨true, rfl, ?_⟩
        simp only [true_iff]
        exact ⟨(loopPure_nil_true _).mp hrow, (loopPure_nil_true _).mp hcol,
          (loopPure_nil_true _).mp hbox⟩

theorem within_true_iff {b : Board} {x y : Nat} (hwf : b.Wf)
    (hsq : IsSquareN b.n) (hx : x < b.n) (hy : y < b.n) :
    b.within_constraints x y = .ok true ↔ ChecksAt b x y := by
  obtain ⟨r, hr, hiff⟩ := within_eq_ok hwf hsq hx hy
  rw [hr]
  cases r
  · simp only [Bool.false_eq_true, false_iff] at hiff
    constructor
    · intro h; exact absurd (by injection h) (by simp)
    · intro h; exact absurd h hiff
  · simp only [true_iff] at hiff
    simp [hiff]

theorem within_false_iff {b : Board} {x y : Nat} (hwf : b.Wf)
    (hsq : IsSquareN b.n) (hx : x < b.n) (hy : y < b.n) :
    b.within_constraints x y = .ok false ↔ ¬ ChecksAt b x y := by
  obtain ⟨r, hr, hiff⟩ := within_eq_ok hwf hsq hx hy
  rw [hr]
  cases r
  · simp only [Bool.false_eq_true, false_iff] at hiff
    simp [hiff]
  · simp only [true_iff] at hiff
    constructor
    · intro h; exact absurd (by injection h) (by simp)
    · intro h; exact absurd hiff h

theorem mem_filterMap_mono {α : Type} {f g : α → Option Nat} :
    ∀ (l : List α), (∀ a ∈ l, ∀ v, f a = some v → g a = some v) →
    ∀ {v : Nat}, v ∈ l.filterMap f → v ∈ l.filterMap g := by
  intro l hfg v hv
  obtain ⟨a, ha, hfa⟩ := List.mem_filterMap.mp hv
  exact List.mem_filterMap.mpr ⟨a, ha, hfg a ha v hfa⟩

theorem nodup_filterMap_mono {α : Type} {f g : α → Option Nat} :
    ∀ (l : List α), (∀ a ∈ l, ∀ v, f a = some v → g a = some v) →
    (l.filterMap g).Nodup → (l.filterMap f).Nodup := by
  intro l
  induction l with
  | nil => intro _ _; simp
  | cons a l ih =>
    intro hfg hg
    have hfg' : ∀ a ∈ l, ∀ v, f a = some v → g a = some v :=
      fun a ha => hfg a (List.mem_cons_of_mem _ ha)
    cases hfa : f a with
    | none =>
      rw [List.filterMap_cons_none hfa]
      apply ih hfg'
      cases hga : g a with
      | none => rw [List.filterMap_cons_none hga] at hg; exact hg
      | some w =>
        rw [List.filterMap_cons_some hga] at hg
        exact (List.nodup_cons.mp hg).2
    | some v =>
      have hga : g a = some v := hfg a (List.mem_cons_self _ _) v hfa
      rw [List.filterMap_cons_some hfa]
      rw [List.filterMap_cons_some hga] at hg
      obtain ⟨hnm, hnd⟩ := List.nodup_cons.mp hg
      refine List.nodup_cons.mpr ⟨?_, ih hfg' hnd⟩
      intro hm
      exact hnm (mem_filterMap_mono l hfg' hm)

theorem not_nodup_filterMap_double {α : Type} {f : α → Option Nat} :
    ∀ {l : List α} {a1 a2 : α}, a1 ∈ l → a2 ∈ l → a1 ≠ a2 →
    ∀ {v : Nat}, f a1 = some v → f a2 = some v → ¬ (l.filterMap f).Nodup := by
  intro l
  induction l with
  | nil => intro a1 _ h1; exact absurd h1 (List.not_mem_nil a1)
  | cons a l ih =>
    intro a1 a2 h1 h2 hne v hf1 hf2 hnd
    rcases List.mem_cons.mp h1 with rfl | h1'
    · have h2' : a2 ∈ l := by
        rcases List.mem_cons.mp h2 with rfl | h
        · exact absurd rfl hne
        · exact h
      rw [List.filterMap_cons_some hf1] at hnd
      exact (List.nodup_cons.mp hnd).1
        (List.mem_filterMap.mpr ⟨a2, h2', hf2⟩)
    · rcases List.mem_cons.mp h2 with rfl | h2'
      · rw [List.filterMap_cons_some hf2] at hnd
        exact (List.nodup_cons.mp hnd).1
          (List.mem_filterMap.mpr ⟨a1, h1', hf1⟩)
      · have : (l.filterMap f).Nodup := by
          cases hfa : f a with
          | none => rw [List.filterMap_cons_none hfa] at hnd; exact hnd
          | some w =>
            rw [List.filterMap_cons_some hfa] at hnd
            exact (List.nodup_cons.mp hnd).2
        exact ih h1' h2' hne hf1 hf2 this

theorem unitVals_congr {bb cc : Board}
    (coords : List (Nat × Nat))
    (h : ∀ q ∈ coords,
      cellAt bb (q.2 * bb.n + q.1) = cellAt cc (q.2 * cc.n + q.1)) :
    unitVals bb coords = unitVals cc coords := by
  unfold unitVals
  apply List.filterMap_congr
  intro q hq
  rw [h q hq]

theorem set?_ok_elim {b : Board} {x y : Nat} {c : Cell} {nb : Board}
    (h : b.set? x y c = .ok nb) :
    y * b.n + x < b.squares.length ∧
    nb = { squares := b.squares.set (y * b.n + x) c, n := b.n } := by
  unfold Board.set? at h
  by_cases hin : y * b.n + x < b.squares.length
  · rw [if_pos hin] at h
    injection h with h2
    exact ⟨hin, h2.symm⟩
  · rw [if_neg hin] at h
    exact absurd h (by simp)

theorem tryStep_nil {step : Board → Option (Except Unit (Option Board))}
    {b : Board} {x y : Nat} :
    Board.tryStep step b x y [] = some (.ok none) := rfl

theorem tryStep_cons_serr {step : Board → Option (Except Unit (Option Board))}
    {b : Board} {x y v : Nat} {rest : List Nat}
    (hset : b.set? x y (Cell.Variable (v % 256)) = .error ()) :
    Board.tryStep step b x y (v :: rest) = some (.error ()) := by
  simp only [Board.tryStep, hset]

theorem tryStep_cons_werr {step : Board → Option (Except Unit (Option Board))}
    {b nb : Board} {x y v : Nat} {rest : List Nat}
    (hset : b.set? x y (Cell.Variable (v % 256)) = .ok nb)
    (hw : nb.within_constraints x y = .error ()) :
    Board.tryStep step b x y (v :: rest) = some (.error ()) := by
  simp only [Board.tryStep, hset, hw]

theorem tryStep_cons_false {step : Board → Option (Except Unit (Option Board))}
    {b nb : Board} {x y v : Nat} {rest : List Nat}
    (hset : b.set? x y (Cell.Variable (v % 256)) = .ok nb)
    (hw : nb.within_constraints x y = .ok false) :
    Board.tryStep step b x y (v :: rest) = Board.tryStep step b x y rest := by
  simp only [Board.tryStep, hset, hw]

theorem tryStep_cons_true_last
    {step : Board → Option (Except Unit (Option Board))}
    {b nb : Board} {x y v : Nat} {rest : List Nat}
    (hset : b.set? x y (Cell.Variable (v % 256)) = .ok nb)
    (hw : nb.within_constraints x y = .ok true)
    (hl : x = b.n - 1 ∧ y = b.n - 1) :
    Board.tryStep step b x y (v :: rest) = some (.ok (some nb)) := by
  simp only [Board.tryStep, hset, hw, if_pos hl]

theorem tryStep_cons_true_rec
    {step : Board → Option (Except Unit (Option Board))}
    {b nb : Board} {x y v : Nat} {rest : List Nat}
    (hset : b.set? x y (Cell.Variable (v % 256)) = .ok nb)
    (hw : nb.within_constraints x y = .ok true)
    (hl : ¬ (x = b.n - 1 ∧ y = b.n - 1)) :
    Board.tryStep step b x y (v :: rest)
      = match step nb with
        | none => none
        | some (.error e) => some (.error e)
        | some (.ok (some board)) => some (.ok (some board))
        | some (.ok none) => Board.tryStep step b x y rest := by
  simp only [Board.tryStep, hset, hw, if_neg hl]

theorem solverF_zero {b : Board} {x y : Nat} :
    Board.solverF b 0 x y = none := rfl

theorem solverF_gerr {b : Board} {f x y : Nat}
    (h : b.get? x y = .error ()) :
    Board.solverF b (f + 1) x y = some (.error ()) := by
  simp only [Board.solverF, h]

theorem solverF_const_werr {b : Board} {f x y u : Nat}
    (hg : b.get? x y = .ok (Cell.Constant u))
    (hw : b.within_constraints x y = .error ()) :
    Board.solverF b (f + 1) x y = some (.error ()) := by
  simp only [Board.solverF, hg, hw]

theorem solverF_const_false {b : Board} {f x y u : Nat}
    (hg : b.get? x y = .ok (Cell.Constant u))
    (hw : b.within_constraints x y = .ok false) :
    Board.solverF b (f + 1) x y = some (.ok none) := by
  simp only [Board.solverF, hg, hw]

theorem solverF_const_true {b : Board} {f x y u : Nat}
    (hg : b.get? x y = .ok (Cell.Constant u))
    (hw : b.within_constraints x y = .ok true) :
    Board.solverF b (f + 1) x y
      = Board.solverF b f (if x < b.n - 1 then x + 1 else 0)
          (if x < b.n - 1 then y else y + 1) := by
  simp only [Board.solverF, hg, hw]

theorem solverF_other {b : Board} {f x y : Nat} {c : Cell}
    (hg : b.get? x y = .ok c) (hc : ∀ u, c ≠ Cell.Constant u) :
    Board.solverF b (f + 1) x y
      = Board.tryStep
          (fun nb => Board.solverF nb f (if x < b.n - 1 then x + 1 else 0)
            (if x < b.n - 1 then y else y + 1)) b x y (Board.candList b.n) := by
  cases c with
  | Constant u => exact absurd rfl (hc u)
  | Variable u => simp only [Board.solverF, hg]
  | Empty => simp only [Board.solverF, hg]

theorem tryStep_isSome {step : Board → Option (Except Unit (Option Board))}
    {b : Board} {x y : Nat}
    (hstep : ∀ nb : Board, nb.squares.length = b.squares.length →
      nb.n = b.n → (step nb).isSome) :
    ∀ cands : List Nat, (Board.tryStep step b x y cands).isSome := by
  intro cands
  induction cands with
  | nil => rw [tryStep_nil]; rfl
  | cons v rest ih =>
    cases hset : b.set? x y (Cell.Variable (v % 256)) with
    | error e =>
      rw [tryStep_cons_serr hset]; rfl
    | ok nb =>
      obtain ⟨hin, hnb⟩ := set?_ok_elim hset
      have hlen : nb.squares.length = b.squares.length := by
        rw [hnb]; simp
      have hn : nb.n = b.n := by rw [hnb]
      cases hw : nb.within_constraints x y with
      | error e =>
        rw [tryStep_cons_werr hset hw]; rfl
      | ok r =>
        cases r with
        | false => rw [tryStep_cons_false hset hw]; exact ih
        | true =>
          by_cases hl : (x = b.n - 1 ∧ y = b.n - 1)
          · rw [tryStep_cons_true_last hset hw hl]; rfl
          · rw [tryStep_cons_true_rec hset hw hl]
            have hs := hstep nb hlen hn
            cases hso : step nb with
            | none => rw [hso] at hs; exact absurd hs (by simp)
            | some r2 =>
              cases r2 with
              | error e => rfl
              | ok o =>
                cases o with
                | none => exact ih
                | some brd => rfl

theorem solverF_isSome : ∀ (f : Nat) (b : Board) (x y : Nat), b.Wf →
    x < b.n → b.n * b.n - (y * b.n + x) < f →
    (Board.solverF b f x y).isSome := by
  intro f
  induction f with
  | zero => intro b x y hwf hx h; omega
  | succ f ih =>
    intro b x y hwf hx hfuel
    cases hg : b.get? x y with
    | error e =>
      rw [solverF_gerr hg]; rfl
    | ok c =>
      obtain ⟨hin, hcell⟩ := get?_ok_elim hg
      have hpos : y * b.n + x < b.n * b.n := by rw [← hwf]; exact hin
      have hxn : (if x < b.n - 1 then x + 1 else 0) < b.n := xnext_lt hx
      have hfuel' : b.n * b.n
          - ((if x < b.n - 1 then y else y + 1) * b.n
            + (if x < b.n - 1 then x + 1 else 0)) < f := by
        rw [next_pos hx]; omega
      cases c with
      | Constant u =>
        cases hw : b.within_constraints x y with
        | error e => rw [solverF_const_werr hg hw]; rfl
        | ok r =>
          cases r with
          | false => rw [solverF_const_false hg hw]; rfl
          | true =>
            rw [solverF_const_true hg hw]
            exact ih b _ _ hwf hxn hfuel'
      | Variable u =>
        rw [solverF_other hg (by simp)]
        apply tryStep_isSome
        intro nb hlen hn
        have hwf2 : nb.Wf := by
          unfold Board.Wf at hwf ⊢
          rw [hlen, hn, hwf]
        have hx2 : (if x < b.n - 1 then x + 1 else 0) < nb.n := by
          rw [hn]; exact hxn
        have hf2 : nb.n * nb.n
            - ((if x < b.n - 1 then y else y + 1) * nb.n
              + (if x < b.n - 1 then x + 1 else 0)) < f := by
          rw [hn]; exact hfuel'
        exact ih nb _ _ hwf2 hx2 hf2
      | Empty =>
        rw [solverF_other hg (by simp)]
        apply tryStep_isSome
        intro nb hlen hn
        have hwf2 : nb.Wf := by
          unfold Board.Wf at hwf ⊢
          rw [hlen, hn, hwf]
        have hx2 : (if x < b.n - 1 then x + 1 else 0) < nb.n := by
          rw [hn]; exact hxn
        have hf2 : nb.n * nb.n
            - ((if x < b.n - 1 then y else y + 1) * nb.n
              + (if x < b.n - 1 then x + 1 else 0)) < f := by
          rw [hn]; exact hfuel'
        exact ih nb _ _ hwf2 hx2 hf2

theorem solverF_n_zero {b : Board} (hwf : b.Wf) (hn : b.n = 0)
    (f x y : Nat) : Board.solverF b (f + 1) x y = some (.error ()) := by
  apply solverF_gerr
  apply get?_eq_err
  rw [hwf, hn]
  simp

theorem solve_exists_run {b : Board} (hwf : b.Wf) :
    ∃ r, Board.solverF b (b.n * b.n + 1) 0 0 = some r ∧ b.solve = r := by
  have hs : (Board.solverF b (b.n * b.n + 1) 0 0).isSome := by
    by_cases hn : b.n = 0
    · have : b.n * b.n + 1 = 0 + 1 := by rw [hn]
      rw [this, solverF_n_zero hwf hn]
      rfl
    · apply solverF_isSome _ b 0 0 hwf (by omega)
      omega
  obtain ⟨r, hr⟩ := Option.isSome_iff_exists.mp hs
  refine ⟨r, hr, ?_⟩
  unfold Board.solve
  rw [hr]

theorem unitNodup_transfer {S bb : Board} (coords : List (Nat × Nat))
    (h : ∀ q ∈ coords,
      cellAt S (q.2 * S.n + q.1) = cellAt bb (q.2 * bb.n + q.1)) :
    (unitVals bb coords).Nodup → (unitVals S coords).Nodup := by
  rw [unitVals_congr coords h]
  exact id

theorem unitNodup_mono {bb S : Board} (coords : List (Nat × Nat))
    (h : ∀ q ∈ coords, ∀ v,
      cellVal (cellAt bb (q.2 * bb.n + q.1)) = some v →
      cellVal (cellAt S (q.2 * S.n + q.1)) = some v) :
    (unitVals S coords).Nodup → (unitVals bb coords).Nodup := by
  unfold unitVals
  exact nodup_filterMap_mono coords h

theorem checksAt_step {S bb : Board} {x y : Nat} (hnS : S.n = bb.n)
    (hsq : IsSquareN bb.n) (hx : x < bb.n) (hy : y < bb.n)
    (hag : AgreesBelow S bb (y * bb.n + x + 1))
    (hcf : ChecksFrom S (y * bb.n + x + 1))
    (hwt : ChecksAt bb x y) :
    ChecksAt S x y := by
  obtain ⟨hw1, hw2, hw3⟩ := hwt
  have hn0 : 0 < bb.n := by omega
  have hs : 0 < fsqrt bb.n := fsqrt_pos (by omega)
  set s := fsqrt bb.n with hsdef
  have hss : s * s = bb.n := hsq
  refine ⟨?_, ?_, ?_⟩
  · by_cases hxl : x = bb.n - 1
    · unfold RowOk
      rw [hnS]
      refine unitNodup_transfer _ ?_ hw1
      intro q hq
      obtain ⟨hq1, hq2⟩ := rowCoords_mem hq
      rw [hnS, hq2]
      apply hag
      omega
    · exact (hcf (bb.n - 1) y (by rw [hnS]; omega) (by rw [hnS]; exact hy)
        (by rw [hnS]; omega)).1
  · by_cases hyl : y = bb.n - 1
    · unfold ColOk
      rw [hnS]
      refine unitNodup_transfer _ ?_ hw2
      intro q hq
      obtain ⟨hq1, hq2⟩ := colCoords_mem hq
      rw [hnS, hq1]
      apply hag
      have : q.2 * bb.n ≤ y * bb.n := Nat.mul_le_mul_right _ (by omega)
      omega
    · refine (hcf x (bb.n - 1) (by rw [hnS]; exact hx) (by rw [hnS]; omega)
        ?_).2.1
      rw [hnS]
      have h1 : (y + 1) * bb.n ≤ (bb.n - 1) * bb.n :=
        Nat.mul_le_mul_right _ (by omega)
      have h2 : (y + 1) * bb.n = y * bb.n + bb.n := by ring
      omega
  · have hsn : fsqrt S.n = s := by rw [hnS]
    set cx := x / s * s + (s - 1) with hcx
    set cy := y / s * s + (s - 1) with hcy
    have hxd := Nat.div_add_mod x s
    have hxm : x % s < s := Nat.mod_lt _ hs
    have hyd := Nat.div_add_mod y s
    have hym : y % s < s := Nat.mod_lt _ hs
    have hxc : x / s * s = s * (x / s) := Nat.mul_comm _ _
    have hyc : y / s * s = s * (y / s) := Nat.mul_comm _ _
    have hxcx : x ≤ cx := by omega
    have hycy : y ≤ cy := by omega
    have hbx := div_mul_bound hs (show x < s * s by omega)
    have hby := div_mul_bound hs (show y < s * s by omega)
    have hcxn : cx < bb.n := by omega
    have hcyn : cy < bb.n := by omega
    have hcxdiv : cx / s = x / s := by
      have h0 : (s * (x / s) + (s - 1)) / s = x / s + (s - 1) / s :=
        Nat.mul_add_div hs _ _
      rw [hcx, hxc, h0, Nat.div_eq_of_lt (show s - 1 < s by omega)]
      omega
    have hcydiv : cy / s = y / s := by
      have h0 : (s * (y / s) + (s - 1)) / s = y / s + (s - 1) / s :=
        Nat.mul_add_div hs _ _
      rw [hcy, hyc, h0, Nat.div_eq_of_lt (show s - 1 < s by omega)]
      omega
    by_cases hcor : cx = x ∧ cy = y
    · unfold BoxOk
      rw [hsn]
      refine unitNodup_transfer _ ?_ hw3
      intro q hq
      obtain ⟨hb1, hb2, hb3, hb4⟩ := boxCoords_mem hq
      rw [hnS]
      apply hag
      have hq1x : q.1 ≤ x := by omega
      have hq2y : q.2 ≤ y := by omega
      have : q.2 * bb.n ≤ y * bb.n := Nat.mul_le_mul_right _ hq2y
      omega
    · have hpos : y * bb.n + x + 1 ≤ cy * S.n + cx := by
        rw [hnS]
        rcases Nat.lt_or_ge x cx with hlt | hge
        · have : y * bb.n ≤ cy * bb.n := Nat.mul_le_mul_right _ hycy
          omega
        · have hxeq : cx = x := by omega
          have hcyy : y < cy := by
            rcases Nat.lt_or_ge y cy with h | h
            · exact h
            · exact absurd ⟨hxeq, by omega⟩ hcor
          have h1 : (y + 1) * bb.n ≤ cy * bb.n :=
            Nat.mul_le_mul_right _ (by omega)
          have h2 : (y + 1) * bb.n = y * bb.n + bb.n := by ring
          omega
      have hcc := hcf cx cy (by rw [hnS]; exact hcxn) (by rw [hnS]; exact hcyn)
        hpos
      have hb := hcc.2.2
      rw [hsn] at hb
      rw [hcxdiv, hcydiv] at hb
      show BoxOk S (x / fsqrt S.n) (y / fsqrt S.n)
      rw [hsn]
      exact hb

theorem last_pos_eq {n x y p : Nat} (hx : x < n) (hl : x = n - 1 ∧ y = n - 1)
    (hp1 : y * n + x ≤ p) (hp2 : p < n * n) : p = y * n + x := by
  obtain ⟨hxm, hym⟩ := hl
  have h1 : n * n = (n - 1) * n + n := by
    cases n with
    | zero => omega
    | succ m =>
      have hm : m + 1 - 1 = m := rfl
      rw [hm]
      ring
  have h2 : y * n = (n - 1) * n := by rw [hym]
  omega

theorem tryStep_sound {step : Board → Option (Except Unit (Option Board))}
    {b : Board} {x y : Nat} {S : Board}
    (hwf : b.Wf) (hsq : IsSquareN b.n) (hx : x < b.n) (hy : y < b.n)
    (hnc : ∀ u, cellAt b (y * b.n + x) ≠ Cell.Constant u)
    (hnext : ∀ nb S2, nb.Wf → nb.n = b.n →
      step nb = some (.ok (some S2)) → SolverOut S2 nb (y * b.n + x + 1)) :
    ∀ cands : List Nat, (∀ v ∈ cands, 1 ≤ v ∧ v ≤ b.n) →
    Board.tryStep step b x y cands = some (.ok (some S)) →
    SolverOut S b (y * b.n + x) := by
  intro cands
  induction cands with
  | nil =>
    intro _ heq
    rw [tryStep_nil] at heq
    exact absurd heq (by simp)
  | cons v rest ih =>
    intro hbound heq
    have hin : y * b.n + x < b.squares.length := by
      rw [hwf]; exact pos_lt_sq hx hy
    have hset := set?_eq_ok (c := Cell.Variable (v % 256)) hin
    set nb : Board :=
      { squares := b.squares.set (y * b.n + x) (Cell.Variable (v % 256)),
        n := b.n } with hnb
    have hnbn : nb.n = b.n := rfl
    have hnbwf : nb.Wf := by
      unfold Board.Wf
      rw [hnb]
      simp only [List.length_set]
      exact hwf
    have hnblen : nb.squares.length = b.squares.length := by
      rw [hnb]; simp
    have hcellnb : ∀ p, cellAt nb p
        = if p = y * b.n + x then Cell.Variable (v % 256) else cellAt b p :=
      fun p => cellAt_set hin p
    have hvb := hbound v (List.mem_cons_self _ _)
    have hrestb : ∀ w ∈ rest, 1 ≤ w ∧ w ≤ b.n :=
      fun w hw => hbound w (List.mem_cons_of_mem _ hw)
    cases hw : nb.within_constraints x y with
    | error e =>
      rw [tryStep_cons_werr hset hw] at heq
      exact absurd heq (by simp)
    | ok r =>
      cases r with
      | false =>
        rw [tryStep_cons_false hset hw] at heq
        exact ih hrestb heq
      | true =>
        have hchecks : ChecksAt nb x y :=
          (within_true_iff hnbwf (by rw [hnbn]; exact hsq)
            (by rw [hnbn]; exact hx) (by rw [hnbn]; exact hy)).mp hw
        by_cases hl : (x = b.n - 1 ∧ y = b.n - 1)
        · rw [tryStep_cons_true_last hset hw hl] at heq
          injection heq with h1
          injection h1 with h2
          injection h2 with h3
          subst h3
          refine ⟨hnbn, hnbwf, ?_, ?_, ?_⟩
          · intro p hp
            rw [hcellnb p, if_neg (by omega)]
          · intro p hp1 hp2
            have hpp : p = y * b.n + x :=
              last_pos_eq hx hl hp1 (by rw [← hwf]; exact hp2)
            right
            refine ⟨by rw [hpp]; exact hnc, v, hvb.1, hvb.2, ?_⟩
            rw [hpp, hcellnb, if_pos rfl]
          · intro x0 y0 hx0 hy0 hpos0
            rw [hnbn] at hx0 hy0 hpos0
            have hpe : y0 * b.n + x0 = y * b.n + x :=
              last_pos_eq hx hl hpos0 (pos_lt_sq hx0 hy0)
            obtain ⟨rfl, rfl⟩ := pos_inj hx0 hx hpe
            exact hchecks
        · rw [tryStep_cons_true_rec hset hw hl] at heq
          cases hso : step nb with
          | none =>
            rw [hso] at heq
            simp at heq
          | some r2 =>
            rw [hso] at heq
            cases r2 with
            | error e => simp at heq
            | ok o =>
              cases o with
              | none =>
                simp only [] at heq
                exact ih hrestb heq
              | some brd =>
                simp only [] at heq
                injection heq with h1
                injection h1 with h2
                injection h2 with h3
                rw [h3] at hso
                have hout := hnext nb S hnbwf hnbn hso
                obtain ⟨o1, o2, o3, o4, o5⟩ := hout
                have o1b : S.n = b.n := by rw [o1]
                refine ⟨o1b, o2, ?_, ?_, ?_⟩
                · intro p hp
                  rw [o3 p (by omega), hcellnb, if_neg (by omega)]
                · intro p hp1 hp2
                  by_cases hpp : p = y * b.n + x
                  · right
                    refine ⟨by rw [hpp]; exact hnc, v, hvb.1, hvb.2, ?_⟩
                    rw [hpp, o3 _ (by omega), hcellnb, if_pos rfl]
                  · have h4 := o4 p (by omega) (by rw [hnblen]; exact hp2)
                    rcases h4 with ⟨u, hu1, hu2⟩ | ⟨hu1, w, hw1, hw2, hw3⟩
                    · left
                      rw [hcellnb, if_neg hpp] at hu1
                      exact ⟨u, hu1, hu2⟩
                    · right
                      refine ⟨?_, w, hw1, by rw [← hnbn]; exact hw2, hw3⟩
                      intro u2
                      have := hu1 u2
                      rw [hcellnb, if_neg hpp] at this
                      exact this
                · intro x0 y0 hx0 hy0 hpos0
                  by_cases hgt : y * b.n + x + 1 ≤ y0 * S.n + x0
                  · exact o5 x0 y0 hx0 hy0 hgt
                  · rw [o1b] at hx0 hy0 hpos0 hgt
                    have hpe : y0 * b.n + x0 = y * b.n + x := by omega
                    obtain ⟨rfl, rfl⟩ := pos_inj hx0 hx hpe
                    exact checksAt_step o1 (by rw [hnbn]; exact hsq)
                      (by rw [hnbn]; exact hx) (by rw [hnbn]; exact hy)
                      (by rw [hnbn]; exact o3) (by rw [hnbn]; exact o5) hchecks

theorem solverF_sound : ∀ (f : Nat) (b : Board) (x y : Nat) (S : Board),
    b.Wf → IsSquareN b.n → x < b.n →
    Board.solverF b f x y = some (.ok (some S)) →
    SolverOut S b (y * b.n + x) := by
  intro f
  induction f with
  | zero =>
    intro b x y S _ _ _ h
    rw [solverF_zero] at h
    exact absurd h (by simp)
  | succ f ih =>
    intro b x y S hwf hsq hx heq
    cases hg : b.get? x y with
    | error e =>
      rw [solverF_gerr hg] at heq
      exact absurd heq (by simp)
    | ok c =>
      obtain ⟨hin, hcell⟩ := get?_ok_elim hg
      have hy : y < b.n := y_lt_of_pos_lt (by rw [← hwf]; exact hin)
      have hxn := xnext_lt hx
      cases c with
      | Constant u =>
        cases hw : b.within_constraints x y with
        | error e =>
          rw [solverF_const_werr hg hw] at heq
          exact absurd heq (by simp)
        | ok r =>
          cases r with
          | false =>
            rw [solverF_const_false hg hw] at heq
            exact absurd heq (by simp)
          | true =>
            rw [solverF_const_true hg hw] at heq
            have ihout := ih b _ _ S hwf hsq hxn heq
            rw [next_pos hx] at ihout
            obtain ⟨o1, o2, o3, o4, o5⟩ := ihout
            have hchecks : ChecksAt b x y :=
              (within_true_iff hwf hsq hx hy).mp hw
            refine ⟨o1, o2, ?_, ?_, ?_⟩
            · intro p hp
              exact o3 p (by omega)
            · intro p hp1 hp2
              by_cases hpp : p = y * b.n + x
              · left
                refine ⟨u, by rw [hpp]; exact hcell, ?_⟩
                rw [hpp, o3 _ (by omega)]
                exact hcell
              · exact o4 p (by omega) hp2
            · intro x0 y0 hx0 hy0 hpos0
              by_cases hgt : y * b.n + x + 1 ≤ y0 * S.n + x0
              · exact o5 x0 y0 hx0 hy0 hgt
              · rw [o1] at hx0 hy0 hpos0 hgt
                have hpe : y0 * b.n + x0 = y * b.n + x := by omega
                obtain ⟨rfl, rfl⟩ := pos_inj hx0 hx hpe
                exact checksAt_step o1 hsq hx hy o3 o5 hchecks
      | Variable u =>
        rw [solverF_other hg (by simp)] at heq
        have hnc : ∀ u2, cellAt b (y * b.n + x) ≠ Cell.Constant u2 := by
          intro u2 hcon
          rw [hcell] at hcon
          exact absurd hcon (by simp)
        refine tryStep_sound hwf hsq hx hy hnc ?_ (Board.candList b.n) ?_ heq
        · intro nb S2 hnbwf hnbn hstep
          have hout := ih nb _ _ S2 hnbwf (by unfold IsSquareN; rw [hnbn]; exact hsq)
            (by rw [hnbn]; exact hxn) hstep
          have hposrw : (if x < b.n - 1 then y else y + 1) * nb.n
              + (if x < b.n - 1 then x + 1 else 0) = y * b.n + x + 1 := by
            rw [hnbn]
            exact next_pos hx
          rw [hposrw] at hout
          exact hout
        · intro w hwm
          have := List.mem_range'_1.mp hwm
          omega
      | Empty =>
        rw [solverF_other hg (by simp)] at heq
        have hnc : ∀ u2, cellAt b (y * b.n + x) ≠ Cell.Constant u2 := by
          intro u2 hcon
          rw [hcell] at hcon
          exact absurd hcon (by simp)
        refine tryStep_sound hwf hsq hx hy hnc ?_ (Board.candList b.n) ?_ heq
        · intro nb S2 hnbwf hnbn hstep
          have hout := ih nb _ _ S2 hnbwf (by unfold IsSquareN; rw [hnbn]; exact hsq)
            (by rw [hnbn]; exact hxn) hstep
          have hposrw : (if x < b.n - 1 then y else y + 1) * nb.n
              + (if x < b.n - 1 then x + 1 else 0) = y * b.n + x + 1 := by
            rw [hnbn]
            exact next_pos hx
          rw [hposrw] at hout
          exact hout
        · intro w hwm
          have := List.mem_range'_1.mp hwm
          omega

theorem checksAt_of_valid {b S : Board} {x y : Nat} (hwf : b.Wf)
    (hsq : IsSquareN b.n) (hSn : S.n = b.n) (hval : ValidBoard S)
    (hagree : ValAgree b S) (hx : x < b.n) (hy : y < b.n) :
    ChecksAt b x y := by
  have hs : 0 < fsqrt b.n := by exact fsqrt_pos (by omega)
  refine ⟨?_, ?_, ?_⟩
  · have hvr : RowOk S y := hval.1 y (by rw [hSn]; exact hy)
    unfold RowOk at hvr ⊢
    rw [hSn] at hvr
    refine unitNodup_mono _ ?_ hvr
    intro q hq vv hvv
    obtain ⟨h1, h2⟩ := rowCoords_mem hq
    rw [hSn]
    refine hagree _ ?_ vv hvv
    rw [hwf, h2]
    exact pos_lt_sq h1 hy
  · have hvc : ColOk S x := hval.2.1 x (by rw [hSn]; exact hx)
    unfold ColOk at hvc ⊢
    rw [hSn] at hvc
    refine unitNodup_mono _ ?_ hvc
    intro q hq vv hvv
    obtain ⟨h1, h2⟩ := colCoords_mem hq
    rw [hSn]
    refine hagree _ ?_ vv hvv
    rw [hwf, h1]
    exact pos_lt_sq hx h2
  · have hdx : x / fsqrt b.n < fsqrt b.n := by
      apply (Nat.div_lt_iff_lt_mul hs).mpr
      unfold IsSquareN at hsq
      omega
    have hdy : y / fsqrt b.n < fsqrt b.n := by
      apply (Nat.div_lt_iff_lt_mul hs).mpr
      unfold IsSquareN at hsq
      omega
    have hvb : BoxOk S (x / fsqrt b.n) (y / fsqrt b.n) :=
      hval.2.2 _ _ (by rw [hSn]; exact hdx) (by rw [hSn]; exact hdy)
    unfold BoxOk at hvb ⊢
    rw [hSn] at hvb
    refine unitNodup_mono _ ?_ hvb
    intro q hq vv hvv
    obtain ⟨hb1, hb2, hb3, hb4⟩ := boxCoords_mem hq
    rw [hSn]
    refine hagree _ ?_ vv hvv
    have hbx := div_mul_bound hs (show x < fsqrt b.n * fsqrt b.n by
      unfold IsSquareN at hsq; omega)
    have hby := div_mul_bound hs (show y < fsqrt b.n * fsqrt b.n by
      unfold IsSquareN at hsq; omega)
    have hq1 : q.1 < b.n := by unfold IsSquareN at hsq; omega
    have hq2 : q.2 < b.n := by unfold IsSquareN at hsq; omega
    rw [hwf]
    exact pos_lt_sq hq1 hq2

theorem tryStep_complete {step : Board → Option (Except Unit (Option Board))}
    {b S : Board} {x y : Nat}
    (hwf : b.Wf) (hsq : IsSquareN b.n) (hx : x < b.n) (hy : y < b.n)
    (hSn : S.n = b.n) (hval : ValidBoard S) (hagree : ValAgree b S)
    (vstar : Nat) (hv1 : 1 ≤ vstar) (hv2 : vstar ≤ b.n) (hv3 : vstar ≤ 255)
    (hvcell : cellVal (cellAt S (y * b.n + x)) = some vstar)
    (hstep : ∀ w nb, 1 ≤ w → w ≤ b.n →
      b.set? x y (Cell.Variable (w % 256)) = .ok nb → ValAgree nb S →
      step nb ≠ some (.ok none)) :
    ∀ cands : List Nat, vstar ∈ cands →
    Board.tryStep step b x y cands ≠ some (.ok none) := by
  intro cands
  induction cands with
  | nil => intro hmem; exact absurd hmem (List.not_mem_nil _)
  | cons v rest ih =>
    intro hmem heq
    have hin : y * b.n + x < b.squares.length := by
      rw [hwf]; exact pos_lt_sq hx hy
    have hset := set?_eq_ok (c := Cell.Variable (v % 256)) hin
    set nb : Board :=
      { squares := b.squares.set (y * b.n + x) (Cell.Variable (v % 256)),
        n := b.n } with hnb
    have hnbwf : nb.Wf := by
      unfold Board.Wf
      rw [hnb]
      simp only [List.length_set]
      exact hwf
    have hcellnb : ∀ p, cellAt nb p
        = if p = y * b.n + x then Cell.Variable (v % 256) else cellAt b p :=
      fun p => cellAt_set hin p
    obtain ⟨r, hr, hiff⟩ := within_eq_ok (b := nb) hnbwf hsq hx hy
    by_cases hvv : v = vstar
    · subst hvv
      have hagnb : ValAgree nb S := by
        intro p hplen vv hvv2
        rw [hcellnb p] at hvv2
        by_cases hpp : p = y * b.n + x
        · rw [if_pos hpp] at hvv2
          have hmod : v % 256 = v := Nat.mod_eq_of_lt (by omega)
          rw [hmod] at hvv2
          have : vv = v := by
            unfold cellVal at hvv2
            injection hvv2 with h
            exact h.symm
          rw [this, hpp]
          exact hvcell
        · rw [if_neg hpp] at hvv2
          refine hagree p ?_ vv hvv2
          rw [hnb] at hplen
          simp only [List.length_set] at hplen
          exact hplen
      have hok : ChecksAt nb x y :=
        checksAt_of_valid hnbwf hsq (hSn.trans rfl) hval hagnb hx hy
      have hrt : r = true := hiff.mpr hok
      subst hrt
      by_cases hl : (x = b.n - 1 ∧ y = b.n - 1)
      · rw [tryStep_cons_true_last hset hr hl] at heq
        simp at heq
      · rw [tryStep_cons_true_rec hset hr hl] at heq
        have hne := hstep v nb hv1 hv2 hset hagnb
        cases hso : step nb with
        | none => rw [hso] at heq; simp at heq
        | some r2 =>
          rw [hso] at heq
          cases r2 with
          | error e => simp at heq
          | ok o =>
            cases o with
            | none => exact hne hso
            | some brd => simp at heq
    · have hmem' : vstar ∈ rest := by
        rcases List.mem_cons.mp hmem with h | h
        · exact absurd h.symm hvv
        · exact h
      cases r with
      | false =>
        rw [tryStep_cons_false hset hr] at heq
        exact ih hmem' heq
      | true =>
        by_cases hl : (x = b.n - 1 ∧ y = b.n - 1)
        · rw [tryStep_cons_true_last hset hr hl] at heq
          simp at heq
        · rw [tryStep_cons_true_rec hset hr hl] at heq
          cases hso : step nb with
          | none => rw [hso] at heq; simp at heq
          | some r2 =>
            rw [hso] at heq
            cases r2 with
            | error e => simp at heq
            | ok o =>
              cases o with
              | none =>
                simp only [] at heq
                exact ih hmem' heq
              | some brd => simp at heq

theorem solverF_complete : ∀ (f : Nat) (b : Board) (x y : Nat) (S : Board),
    b.Wf → IsSquareN b.n → x < b.n → S.n = b.n →
    ValidBoard S → ValAgree b S →
    (∀ p, y * b.n + x ≤ p → p < b.squares.length → cellAt b p = Cell.Empty →
      ∃ v, 1 ≤ v ∧ v ≤ b.n ∧ v ≤ 255 ∧ cellVal (cellAt S p) = some v) →
    (∀ p, y * b.n + x ≤ p → p < b.squares.length →
      cellAt b p = Cell.Empty ∨ ∃ u, cellAt b p = Cell.Constant u) →
    Board.solverF b f x y ≠ some (.ok none) := by
  intro f
  induction f with
  | zero =>
    intro b x y S _ _ _ _ _ _ _ _ heq
    rw [solverF_zero] at heq
    exact absurd heq (by simp)
  | succ f ih =>
    intro b x y S hwf hsq hx hSn hval hagree hE hC heq
    cases hg : b.get? x y with
    | error e =>
      rw [solverF_gerr hg] at heq
      simp at heq
    | ok c =>
      obtain ⟨hin, hcell⟩ := get?_ok_elim hg
      have hy : y < b.n := y_lt_of_pos_lt (by rw [← hwf]; exact hin)
      have hxn := xnext_lt hx
      have hposnext : (if x < b.n - 1 then y else y + 1) * b.n
          + (if x < b.n - 1 then x + 1 else 0) = y * b.n + x + 1 :=
        next_pos hx
      cases c with
      | Constant u =>
        have hok : ChecksAt b x y :=
          checksAt_of_valid hwf hsq hSn hval hagree hx hy
        obtain ⟨r, hr, hiff⟩ := within_eq_ok hwf hsq hx hy
        have hrt : r = true := hiff.mpr hok
        subst hrt
        rw [solverF_const_true hg hr] at heq
        refine ih b _ _ S hwf hsq hxn hSn hval hagree ?_ ?_ heq
        · intro p hp hplen hpe
          exact hE p (by omega) hplen hpe
        · intro p hp hplen
          exact hC p (by omega) hplen
      | Variable u =>
        rcases hC _ le_rfl hin with h | ⟨u2, h⟩
        · rw [hcell] at h
          exact absurd h (by simp)
        · rw [hcell] at h
          exact absurd h (by simp)
      | Empty =>
        rw [solverF_other hg (by simp)] at heq
        obtain ⟨vs, hv1, hv2, hv3, hvcell⟩ := hE _ le_rfl hin hcell
        refine tryStep_complete hwf hsq hx hy hSn hval hagree vs hv1 hv2 hv3
          hvcell ?_ (Board.candList b.n) ?_ heq
        · intro w nb hw1 hw2 hsetw hagnb
          obtain ⟨_, hnbdef⟩ := set?_ok_elim hsetw
          have hnbn : nb.n = b.n := by rw [hnbdef]
          have hnbwf : nb.Wf := by
            unfold Board.Wf
            rw [hnbdef]
            simp only [List.length_set]
            exact hwf
          have hnblen : nb.squares.length = b.squares.length := by
            rw [hnbdef]
            simp
          have hcellnb : ∀ p, cellAt nb p
              = if p = y * b.n + x then Cell.Variable (w % 256)
                else cellAt b p := by
            intro p
            rw [hnbdef]
            exact cellAt_set hin p
          intro hstepeq
          refine ih nb _ _ S hnbwf (by unfold IsSquareN; rw [hnbn]; exact hsq)
            (by rw [hnbn]; exact hxn) (by rw [hnbn]; exact hSn) hval hagnb
            ?_ ?_ hstepeq
          · intro p hp hplen hpe
            rw [hnbn, hposnext] at hp
            rw [hcellnb, if_neg (by omega)] at hpe
            rw [hnbn]
            exact hE p (by omega) (by rw [← hnblen]; exact hplen) hpe
          · intro p hp hplen
            rw [hnbn, hposnext] at hp
            rw [hcellnb, if_neg (by omega)]
            exact hC p (by omega) (by rw [← hnblen]; exact hplen)
        · have : 1 ≤ vs ∧ vs < 1 + b.n := ⟨hv1, by omega⟩
          exact List.mem_range'_1.mpr this

theorem not_rowOk_of_dup {bb : Board} {yd x1 x2 v : Nat}
    (hx1 : x1 < bb.n) (hx2 : x2 < bb.n) (hne : x1 ≠ x2)
    (h1 : cellAt bb (yd * bb.n + x1) = Cell.Constant v)
    (h2 : cellAt bb (yd * bb.n + x2) = Cell.Constant v) :
    ¬ RowOk bb yd := by
  unfold RowOk unitVals rowCoords
  rw [List.filterMap_map]
  apply not_nodup_filterMap_double (List.mem_range.mpr hx1)
    (List.mem_range.mpr hx2) hne (v := v)
  · show cellVal (cellAt bb (yd * bb.n + x1)) = some v
    rw [h1]
    rfl
  · show cellVal (cellAt bb (yd * bb.n + x2)) = some v
    rw [h2]
    rfl

theorem tryStep_allFalse {step : Board → Option (Except Unit (Option Board))}
    {b : Board} {x y : Nat}
    (hin : y * b.n + x < b.squares.length)
    (hall : ∀ (w : Nat) (nb : Board),
      b.set? x y (Cell.Variable (w % 256)) = .ok nb →
      nb.within_constraints x y = .ok false) :
    ∀ cands : List Nat, Board.tryStep step b x y cands = some (.ok none) := by
  intro cands
  induction cands with
  | nil => exact tryStep_nil
  | cons w rest ih =>
    have hset := set?_eq_ok (c := Cell.Variable (w % 256)) hin
    rw [tryStep_cons_false hset (hall w _ hset)]
    exact ih

theorem tryStep_noSuccess {step : Board → Option (Except Unit (Option Board))}
    {b : Board} {x y : Nat}
    (hwf : b.Wf) (hsq : IsSquareN b.n) (hx : x < b.n) (hy : y < b.n)
    (hl : ¬ (x = b.n - 1 ∧ y = b.n - 1))
    (hstep : ∀ (w : Nat) (nb : Board),
      b.set? x y (Cell.Variable (w % 256)) = .ok nb →
      (step nb = none ∨ step nb = some (.ok none))) :
    ∀ cands : List Nat, Board.tryStep step b x y cands = none ∨
      Board.tryStep step b x y cands = some (.ok none) := by
  intro cands
  induction cands with
  | nil => right; exact tryStep_nil
  | cons w rest ih =>
    have hin : y * b.n + x < b.squares.length := by
      rw [hwf]; exact pos_lt_sq hx hy
    have hset := set?_eq_ok (c := Cell.Variable (w % 256)) hin
    set nb : Board :=
      { squares := b.squares.set (y * b.n + x) (Cell.Variable (w % 256)),
        n := b.n } with hnb
    have hnbwf : nb.Wf := by
      unfold Board.Wf
      rw [hnb]
      simp only [List.length_set]
      exact hwf
    obtain ⟨r, hr, _⟩ := within_eq_ok (b := nb) hnbwf hsq hx hy
    cases r with
    | false =>
      rw [tryStep_cons_false hset hr]
      exact ih
    | true =>
      rw [tryStep_cons_true_rec hset hr hl]
      rcases hstep w nb hset with h | h
      · rw [h]
        left
        rfl
      · rw [h]
        simp only []
        exact ih

theorem solverF_dup : ∀ (f : Nat) (b : Board) (x y yd x1 x2 v : Nat),
    b.Wf → IsSquareN b.n → x < b.n → y ≤ yd → yd < b.n →
    x1 < b.n → x2 < b.n → x1 ≠ x2 →
    cellAt b (yd * b.n + x1) = Cell.Constant v →
    cellAt b (yd * b.n + x2) = Cell.Constant v →
    (Board.solverF b f x y = none ∨
      Board.solverF b f x y = some (.ok none)) := by
  intro f
  induction f with
  | zero =>
    intro b x y yd x1 x2 v _ _ _ _ _ _ _ _ _ _
    left
    exact solverF_zero
  | succ f ih =>
    intro b x y yd x1 x2 v hwf hsq hx hyle hydn hx1 hx2 hne h1 h2
    have hy : y < b.n := by omega
    have hin : y * b.n + x < b.squares.length := by
      rw [hwf]; exact pos_lt_sq hx hy
    have hg : b.get? x y = .ok (cellAt b (y * b.n + x)) := get?_eq_ok hin
    have hynext : y < yd → (if x < b.n - 1 then y else y + 1) ≤ yd := by
      intro hlt
      by_cases hxl : x < b.n - 1 <;> simp [hxl] <;> omega
    by_cases hcon : ∃ u, cellAt b (y * b.n + x) = Cell.Constant u
    · obtain ⟨u, hc⟩ := hcon
      rw [hc] at hg
      obtain ⟨r, hr, hiff⟩ := within_eq_ok hwf hsq hx hy
      by_cases hyd : y = yd
      · have hnro : ¬ RowOk b yd := not_rowOk_of_dup hx1 hx2 hne h1 h2
        have hrf : r = false := by
          cases r with
          | true => exact absurd (hyd ▸ (hiff.mp rfl).1) hnro
          | false => rfl
        subst hrf
        rw [solverF_const_false hg hr]
        right
        rfl
      · cases r with
        | false =>
          rw [solverF_const_false hg hr]
          right
          rfl
        | true =>
          rw [solverF_const_true hg hr]
          exact ih b _ _ yd x1 x2 v hwf hsq (xnext_lt hx)
            (hynext (by omega)) hydn hx1 hx2 hne h1 h2
    · push_neg at hcon
      rw [solverF_other hg hcon]
      have hd1 : y * b.n + x ≠ yd * b.n + x1 := by
        intro he
        exact hcon v (by rw [he]; exact h1)
      have hd2 : y * b.n + x ≠ yd * b.n + x2 := by
        intro he
        exact hcon v (by rw [he]; exact h2)
      by_cases hyd : y = yd
      · right
        refine tryStep_allFalse hin ?_ (Board.candList b.n)
        intro w nb hsetw
        obtain ⟨_, hnbdef⟩ := set?_ok_elim hsetw
        subst hnbdef
        have hnbwf : Board.Wf
            { squares := b.squares.set (y * b.n + x) (Cell.Variable (w % 256)),
              n := b.n } := by
          unfold Board.Wf
          simp only [List.length_set]
          exact hwf
        have hc1 : cellAt
            { squares := b.squares.set (y * b.n + x) (Cell.Variable (w % 256)),
              n := b.n } (yd * b.n + x1) = Cell.Constant v := by
          rw [cellAt_set hin, if_neg (fun hh => hd1 hh.symm)]
          exact h1
        have hc2 : cellAt
            { squares := b.squares.set (y * b.n + x) (Cell.Variable (w % 256)),
              n := b.n } (yd * b.n + x2) = Cell.Constant v := by
          rw [cellAt_set hin, if_neg (fun hh => hd2 hh.symm)]
          exact h2
        have hnro : ¬ RowOk
            { squares := b.squares.set (y * b.n + x) (Cell.Variable (w % 256)),
              n := b.n } yd :=
          not_rowOk_of_dup hx1 hx2 hne hc1 hc2
        obtain ⟨r, hr, hiff⟩ := within_eq_ok hnbwf hsq hx hy
        have hrf : r = false := by
          cases r with
          | true => exact absurd (hyd ▸ (hiff.mp rfl).1) hnro
          | false => rfl
        subst hrf
        exact hr
      · have hl : ¬ (x = b.n - 1 ∧ y = b.n - 1) := by
          intro hh
          omega
        refine tryStep_noSuccess hwf hsq hx hy hl ?_ (Board.candList b.n)
        intro w nb hsetw
        obtain ⟨_, hnbdef⟩ := set?_ok_elim hsetw
        subst hnbdef
        have hnbwf : Board.Wf
            { squares := b.squares.set (y * b.n + x) (Cell.Variable (w % 256)),
              n := b.n } := by
          unfold Board.Wf
          simp only [List.length_set]
          exact hwf
        have hc1 : cellAt
            { squares := b.squares.set (y * b.n + x) (Cell.Variable (w % 256)),
              n := b.n } (yd * b.n + x1) = Cell.Constant v := by
          rw [cellAt_set hin, if_neg (fun hh => hd1 hh.symm)]
          exact h1
        have hc2 : cellAt
            { squares := b.squares.set (y * b.n + x) (Cell.Variable (w % 256)),
              n := b.n } (yd * b.n + x2) = Cell.Constant v := by
          rw [cellAt_set hin, if_neg (fun hh => hd2 hh.symm)]
          exact h2
        exact ih _ _ _ yd x1 x2 v hnbwf hsq (xnext_lt hx)
          (hynext (by omega)) hydn hx1 hx2 hne hc1 hc2

/-! ## The claims -/

/-- C1: for every grid G (with the Grid invariants `squares.length = n * n`
and perfect-square side required by the spec), if `solve G` returns
`Some S`, then S is complete (no cell is Empty), S is valid (no row,
column, or sub-box of S contains two non-Empty cells with the same value),
and every Fixed (`Constant`) cell of G has the same value at the same
position in S. -/
theorem C1_solve_sound_valid (b S : Board) (hwf : b.Wf) (hsq : IsSquareN b.n)
    (h : b.solve = .ok (some S)) :
    CompleteBoard S ∧ ValidBoard S ∧
    (∀ p, p < b.squares.length → ∀ v,
      cellAt b p = Cell.Constant v → cellAt S p = Cell.Constant v) := by
  obtain ⟨r, hr, hsr⟩ := solve_exists_run hwf
  rw [hsr] at h
  subst h
  have hn0 : b.n ≠ 0 := by
    intro h0
    have hz := solverF_n_zero hwf h0 (b.n * b.n) 0 0
    rw [hz] at hr
    simp at hr
  have hout := solverF_sound (b.n * b.n + 1) b 0 0 S hwf hsq (by omega) hr
  have h00 : (0 : Nat) * b.n + 0 = 0 := by omega
  rw [h00] at hout
  obtain ⟨o1, o2, o3, o4, o5⟩ := hout
  have hlenS : S.squares.length = b.squares.length := by
    unfold Board.Wf at o2 hwf
    rw [o2, o1, hwf]
  refine ⟨?_, ?_, ?_⟩
  · intro p hp
    rcases o4 p (by omega) (by rw [← hlenS]; exact hp) with
      ⟨u2, _, hu2⟩ | ⟨_, w, _, _, hw3⟩
    · rw [hu2]; simp
    · rw [hw3]; simp
  · have hn0S : 0 < S.n := by rw [o1]; omega
    refine ⟨?_, ?_, ?_⟩
    · intro yy hyy
      exact (o5 0 yy hn0S hyy (by omega)).1
    · intro xx hxx
      exact (o5 xx 0 hxx hn0S (by omega)).2.1
    · intro i j hi hj
      have hs : 0 < fsqrt S.n := fsqrt_pos hn0S
      have hsq2 : fsqrt S.n * fsqrt S.n = S.n := by
        rw [o1]
        exact hsq
      have hxi : i * fsqrt S.n < S.n := by
        have h0 : i * fsqrt S.n < fsqrt S.n * fsqrt S.n :=
          (Nat.mul_lt_mul_right hs).mpr hi
        omega
      have hyj : j * fsqrt S.n < S.n := by
        have h0 : j * fsqrt S.n < fsqrt S.n * fsqrt S.n :=
          (Nat.mul_lt_mul_right hs).mpr hj
        omega
      have hcc := o5 (i * fsqrt S.n) (j * fsqrt S.n) hxi hyj (by omega)
      have hdx : i * fsqrt S.n / fsqrt S.n = i := Nat.mul_div_cancel _ hs
      have hdy : j * fsqrt S.n / fsqrt S.n = j := Nat.mul_div_cancel _ hs
      have hbx := hcc.2.2
      rw [hdx, hdy] at hbx
      exact hbx
  · intro p hp v hcv
    rcases o4 p (by omega) hp with ⟨u2, hu1, hu2⟩ | ⟨hu1, _, _, _, _⟩
    · rw [hcv] at hu1
      injection hu1 with he
      rw [hu2, he]
    · exact absurd hcv (hu1 v)

/-- Witness for C1: the 1×1 all-Empty grid solves to `[Variable 1]`, and
C1 yields that this output is complete and valid. -/
theorem C1_solve_sound_valid_witness :
    CompleteBoard { squares := [Cell.Variable 1], n := 1 } ∧
    ValidBoard { squares := [Cell.Variable 1], n := 1 } := by
  have h := C1_solve_sound_valid { squares := [Cell.Empty], n := 1 }
    { squares := [Cell.Variable 1], n := 1 } (by rfl) (by rfl) (by rfl)
  exact ⟨h.1, h.2.1⟩

/-- C2: for every grid G (with the Grid invariants) whose non-Fixed cells
are all Empty, if `solve G` returns None then no assignment of values
1..N to the Empty cells of G produces a globally valid grid: the
backtracking search is complete as well as sound. -/
theorem C2_none_complete (b : Board) (hwf : b.Wf) (hsq : IsSquareN b.n)
    (hshape : OnlyConstOrEmpty b) (h : b.solve = .ok none) :
    ¬ ∃ S, Assignment b S ∧ ValidBoard S := by
  rintro ⟨S, ⟨hSn, _, hcells⟩, hval⟩
  obtain ⟨r, hr, hsr⟩ := solve_exists_run hwf
  rw [hsr] at h
  subst h
  have hagree : ValAgree b S := by
    intro p hp v hv
    rcases hshape p hp with he | ⟨u, hcu⟩
    · rw [he] at hv
      exact absurd hv (by simp [cellVal])
    · have heq := (hcells p hp).1 (by rw [hcu]; simp)
      rw [heq]
      exact hv
  refine solverF_complete (b.n * b.n + 1) b 0 0 S hwf hsq ?_ hSn hval hagree
    ?_ ?_ hr
  · by_cases h0 : b.n = 0
    · exfalso
      have hz := solverF_n_zero hwf h0 (b.n * b.n) 0 0
      rw [hz] at hr
      simp at hr
    · omega
  · intro p _ hp he
    obtain ⟨v, h1, h2, h3, h4⟩ := (hcells p hp).2 he
    exact ⟨v, h1, h2, h3, by rw [h4]; rfl⟩
  · intro p _ hp
    exact hshape p hp

/-- Witness for C2: the 4×4 grid with two Fixed 2s in row 0 solves to
None, and C2 yields that it has no valid completion. -/
theorem C2_none_complete_witness :
    ¬ ∃ S, Assignment dupRowBoard S ∧ ValidBoard S := by
  refine C2_none_complete dupRowBoard (by rfl) (by rfl) ?_ (by rfl)
  intro p hp
  have hp16 : p < 16 := by
    have : dupRowBoard.squares.length = 16 := by rfl
    omega
  interval_cases p <;>
    first
      | exact Or.inl rfl
      | exact Or.inr ⟨2, rfl⟩

/-- C3 counterexample: n = 3 is not a perfect square, yet `new 3` does not
fail: it returns the 3×3 all-Empty grid, on which `get` and `set` work
normally — refuting the claim that `new` rejects every non-square n. -/
theorem C3_counterexample :
    fsqrt 3 * fsqrt 3 ≠ 3 ∧
    Board.new 3 = { squares := List.replicate 9 Cell.Empty, n := 3 } ∧
    (Board.new 3).get? 2 2 = .ok Cell.Empty ∧
    (Board.new 3).set? 1 1 (Cell.Constant 1)
      = .ok { squares := (List.replicate 9 Cell.Empty).set 4 (Cell.Constant 1),
              n := 3 } := by
  refine ⟨by decide, by rfl, by rfl, by rfl⟩

/-- C3 (amended): `new n` never fails and performs no perfect-square
validation: for every n — square or not — it returns an n×n grid whose
every in-range cell reads Empty. -/
theorem C3_amended (n x y : Nat) (hx : x < n) (hy : y < n) :
    (Board.new n).squares.length = n * n ∧
    (Board.new n).get? x y = .ok Cell.Empty := by
  have hlen : (Board.new n).squares.length = n * n := by
    simp [Board.new]
  refine ⟨hlen, ?_⟩
  have hnn : (Board.new n).n = n := rfl
  have hin : y * (Board.new n).n + x < (Board.new n).squares.length := by
    rw [hlen, hnn]
    exact pos_lt_sq hx hy
  rw [get?_eq_ok hin]
  have hcellE : cellAt (Board.new n) (y * (Board.new n).n + x) = Cell.Empty := by
    unfold cellAt Board.new
    simp only [List.getD_eq_getElem?_getD, List.getElem?_replicate]
    split <;> rfl
  rw [hcellE]

/-- Witness for C3 (amended) at the non-square side n = 3. -/
theorem C3_amended_witness :
    (Board.new 3).squares.length = 3 * 3 ∧
    (Board.new 3).get? 2 1 = .ok Cell.Empty :=
  C3_amended 3 2 1 (by decide) (by decide)

/-- C4 counterexample: the grid that claim C4 literally describes — Fixed
cells at (column,row) (0,0)=2, (1,1)=4, (2,2)=2, i.e. row-major indices
0, 5, 10 — does NOT solve to the claimed values
[2,1,3,4, 4,3,1,2, 1,4,2,3, 3,2,4,1]; the solver returns the grid with
row-major values [2,1,3,4, 3,4,1,2, 4,3,2,1, 1,2,4,3]. -/
theorem C4_counterexample :
    claimC4Board.solve = .ok (some claimC4Solution) ∧
    claimC4Solution.squares.map cellVal
      ≠ [2, 1, 3, 4, 4, 3, 1, 2, 1, 4, 2, 3, 3, 2, 4, 1].map some := by
  exact ⟨by rfl, by decide⟩

/-- C4 (amended): the repository's actual fixture — the same three Fixed
values but at row-major indices 0, 4, 10, i.e. (column,row) (0,0)=2,
(0,1)=4, (2,2)=2 — solves to Some of exactly the grid with row-major
values [2,1,3,4, 4,3,1,2, 1,4,2,3, 3,2,4,1] (Constant at the three given
positions, Variable elsewhere). -/
theorem C4_amended : fixtureBoard.solve = .ok (some fixtureSolution) := by
  rfl

/-- C5: `from` computes the side n = ⌊√L⌋ of its L cells and fails
(assert panic) exactly when n * n ≠ L, i.e. exactly when L is not a
perfect square; on a perfect square it returns the grid of side ⌊√L⌋
containing exactly the given cells in order. -/
theorem C5_fromCells_spec (cells : List Cell) :
    ((∃ s, s * s = cells.length) →
      Board.fromCells cells
        = .ok { squares := cells, n := fsqrt cells.length }) ∧
    ((¬ ∃ s, s * s = cells.length) → Board.fromCells cells = .error ()) := by
  constructor
  · rintro ⟨s, hs⟩
    have hrt : fsqrt cells.length = s := by rw [← hs, fsqrt_sq]
    simp only [Board.fromCells]
    rw [hrt, if_pos hs]
  · intro hns
    simp only [Board.fromCells]
    rw [if_neg (fun hcond => hns ⟨fsqrt cells.length, hcond⟩)]

/-- Witness for C5: a length-4 list constructs the 2×2 grid with exactly
those cells; a length-3 list makes `from` fail. -/
theorem C5_fromCells_spec_witness :
    Board.fromCells [Cell.Empty, Cell.Constant 1, Cell.Empty, Cell.Empty]
      = .ok { squares := [Cell.Empty, Cell.Constant 1, Cell.Empty, Cell.Empty],
              n := 2 } ∧
    Board.fromCells [Cell.Empty, Cell.Empty, Cell.Empty] = .error () := by
  constructor
  · have h := (C5_fromCells_spec
      [Cell.Empty, Cell.Constant 1, Cell.Empty, Cell.Empty]).1 ⟨2, rfl⟩
    rw [h]
    rfl
  · refine (C5_fromCells_spec [Cell.Empty, Cell.Empty, Cell.Empty]).2 ?_
    rintro ⟨s, hs⟩
    have h3 : fsqrt 3 = s := by
      rw [show (3 : Nat) = [Cell.Empty, Cell.Empty, Cell.Empty].length from rfl,
        ← hs, fsqrt_sq]
    rw [← h3] at hs
    exact absurd hs (by decide)

/-- C6: on a well-formed grid, `set x y c` followed by `get x y` returns
`c`, and `get` at any other in-range coordinate pair is unchanged. -/
theorem C6_set_get (b : Board) (x y x2 y2 : Nat) (c : Cell) (b2 : Board)
    (hwf : b.Wf) (hx : x < b.n) (hy : y < b.n) (hx2 : x2 < b.n)
    (hy2 : y2 < b.n) (hset : b.set? x y c = .ok b2) :
    b2.get? x y = .ok c ∧
    ((x2, y2) ≠ (x, y) → b2.get? x2 y2 = b.get? x2 y2) := by
  obtain ⟨hin, hdef⟩ := set?_ok_elim hset
  subst hdef
  have hlen2 : (b.squares.set (y * b.n + x) c).length = b.squares.length := by
    simp
  constructor
  · rw [get?_eq_ok (by simpa using hin), cellAt_set hin, if_pos rfl]
  · intro hne
    have hnep : y2 * b.n + x2 ≠ y * b.n + x := by
      intro he
      obtain ⟨he1, he2⟩ := pos_inj hx2 hx he
      exact hne (by rw [he1, he2])
    have hin2 : y2 * b.n + x2 < b.squares.length := by
      rw [hwf]
      exact pos_lt_sq hx2 hy2
    rw [get?_eq_ok (by simpa using hin2), get?_eq_ok hin2, cellAt_set hin,
      if_neg hnep]

/-- Witness for C6: on the blank 2×2 grid, setting (0,1) to Constant 7
makes `get (0,1)` return it and leaves `get (1,0)` unchanged. -/
theorem C6_set_get_witness :
    ({ squares := (List.replicate 4 Cell.Empty).set 2 (Cell.Constant 7),
       n := 2 } : Board).get? 0 1 = .ok (Cell.Constant 7) ∧
    ({ squares := (List.replicate 4 Cell.Empty).set 2 (Cell.Constant 7),
       n := 2 } : Board).get? 1 0 = (Board.new 2).get? 1 0 := by
  have h := C6_set_get (Board.new 2) 0 1 1 0 (Cell.Constant 7)
    { squares := (List.replicate 4 Cell.Empty).set 2 (Cell.Constant 7),
      n := 2 }
    (by rfl) (by decide) (by decide) (by decide) (by decide) (by rfl)
  exact ⟨h.1, h.2 (by decide)⟩

/-- C8: a well-formed, square-sided grid containing two Fixed (`Constant`)
cells with the same value in the same row makes `solve` return None —
never a solution and never a panic: the conflict is caught by the
Fixed-cell legality check (or by the candidate checks) before the
traversal can ever pass that row. -/
theorem C8_dup_fixed_row (b : Board) (yd x1 x2 v : Nat) (hwf : b.Wf)
    (hsq : IsSquareN b.n) (hyd : yd < b.n) (hx1 : x1 < b.n) (hx2 : x2 < b.n)
    (hne : x1 ≠ x2)
    (h1 : cellAt b (yd * b.n + x1) = Cell.Constant v)
    (h2 : cellAt b (yd * b.n + x2) = Cell.Constant v) :
    b.solve = .ok none := by
  obtain ⟨r, hr, hsr⟩ := solve_exists_run hwf
  rcases solverF_dup (b.n * b.n + 1) b 0 0 yd x1 x2 v hwf hsq (by omega)
    (by omega) hyd hx1 hx2 hne h1 h2 with hd | hd
  · rw [hd] at hr
    exact absurd hr (by simp)
  · rw [hd] at hr
    injection hr with hre
    rw [hsr, ← hre]

/-- Witness for C8: the 4×4 grid with Fixed 2s at (0,0) and (1,0) — same
row — solves to None. -/
theorem C8_dup_fixed_row_witness : dupRowBoard.solve = .ok none :=
  C8_dup_fixed_row dupRowBoard 0 0 1 2 (by rfl) (by rfl) (by decide)
    (by decide) (by decide) (by decide) (by rfl) (by rfl)

/-- C9 (code-bug exhibit): the `v as u8` cast in the candidate loop
truncates modulo 256.  Running the loop body (`tryStep`, the `_` arm of
`solver`) on a board with the single candidate value 256 stores
`Variable (256 % 256) = Variable 0` — a cell value outside `1..=n` — and
that cell passes the constraint checks and is returned, so for sides
n ≥ 256 (where `1..=n` reaches 256) the solver's output can contain
`Variable 0`, contradicting the intended bound `1 ≤ v ≤ n`. -/
theorem C9_u8_truncation :
    Board.tryStep (fun _ => none) { squares := [Cell.Empty], n := 1 } 0 0 [256]
      = some (.ok (some { squares := [Cell.Variable 0], n := 1 })) := by
  rfl

/-- C10: the 0×0 grid is accepted by construction (`from []` succeeds,
since 0*0 = 0 cells), but `solve` on it neither returns Some nor None:
its first step reads the cell at (0,0) of an empty squares array, an
out-of-bounds index, so `solve` panics (modelled as `.error ()`) on this
constructible input. -/
theorem C10_empty_board_panics :
    Board.fromCells [] = .ok { squares := [], n := 0 } ∧
    Board.solve { squares := [], n := 0 } = .error () := by
  exact ⟨by rfl, by rfl⟩
